import Mathlib

/-
Shallow embedding of src/src/bff/bff_huffman_decompress.c, a decompressor
for the pack(1) Huffman file format.

Bytes are modelled as natural numbers below 256 and streams as lists
consumed from the front.  The reporting hooks maybe_err and maybe_errx in
the source (lines 90-95) have empty bodies, so a reported condition does
not stop execution; the model therefore records each report as a
diagnostic message and continues, exactly as the C code does.  The model
returns none (undefined) precisely where the C performs an out-of-bounds
array access or depends on indeterminate memory, since the C program has
no defined behaviour past such a point.
-/

/-- Diagnostic messages handed to the no-op reporters maybe_err and
maybe_errx, one constructor per distinct format string in the source. -/
inductive Msg where
  | insaneLevels          -- Huffman tree has insane levels (line 180)
  | fileTruncated         -- File appears to be truncated (line 206)
  | badSymbolTable        -- Bad symbol table (line 212)
  | symbolTableTruncated  -- Symbol table truncated (line 233)
  | fileCorrupt           -- File corrupt (lines 287 and 302)
  | prematureEOF          -- Premature EOF (line 309)
  deriving DecidableEq, Repr

/-- Model of the unpack_descriptor_t struct (lines 71-88).  The field
treelevels holds the decremented level count (line 200), symbol holds the
bytes stored into the symbol table, tree holds for each level the offset
into symbol of that level's first symbol (the C stores pointers), and the
one-past-the-end EOB pointer symbol_eob corresponds to the offset
symbol.length. -/
structure UnpackDescriptor where
  symbol_size : Nat
  treelevels : Nat
  symbolsin : List Nat
  inodesin : List Nat
  symbol : List Nat
  tree : List Nat
  uncompressed_size : Int
  deriving DecidableEq, Repr

/-- Reading n bytes with fgetc (lines 204-209 and 231-235): at end of file
the reporter m is invoked (a no-op) and the int value EOF, cast to the
destination byte type, is stored as 255.  Result: the bytes stored, the
rest of the stream, and the diagnostics in order of occurrence. -/
def read_bytes (m : Msg) : Nat → List Nat → List Nat × List Nat × List Msg
  | 0, s => ([], s, [])
  | n + 1, [] =>
    let r := read_bytes m n []
    (255 :: r.1, r.2.1, m :: r.2.2)
  | n + 1, b :: s =>
    let r := read_bytes m n s
    (b :: r.1, r.2.1, r.2.2)

/-- Increment of the last entry of the symbolsin table, performed once
before the symbol read loop (line 228) and once after it (line 240). -/
def bump_last : List Nat → List Nat
  | [] => []
  | [c] => [c + 1]
  | c :: c2 :: cs => c :: bump_last (c2 :: cs)

/-- Offsets of each level's first symbol inside the symbol table
(tree[i], line 230): level i starts where the read cursor stood after the
previous levels, and the read loop stores exactly counts[j] bytes for
level j. -/
def tree_offsets : List Nat → Nat → List Nat
  | [], _ => []
  | c :: cs, acc => acc :: tree_offsets cs (acc + c)

/-- Recursion of unpackd_fill_inodesin (lines 121-136), written with the
explicit fuel treelevels - level that bounds its depth: with fuel 0 the
level is the last one and holds no internal node, otherwise the count is
half of the internal plus leaf node count of the level below. -/
def fill_inodesin_go (sy : List Nat) : Nat → Nat → Nat
  | 0, _ => 0
  | fuel + 1, level =>
    (fill_inodesin_go sy fuel (level + 1) + sy.getD (level + 1) 0) / 2

/-- Internal node count of a level, unpackd_fill_inodesin (lines 121-136). -/
def fill_inodesin (sy : List Nat) (treelevels level : Nat) : Nat :=
  fill_inodesin_go sy (treelevels - level) level

/-- Body of unpack_parse_header (lines 155-247) once the nonzero header
byte h has been read: range-check the level count, decrement it, read the
per-level leaf counts, total them into symbol_size (starting from 1 for
EOB) and range-check it, pre-increment the last level count, read the
symbol table bytes level by level recording each level's offset,
post-increment the last level count, and derive the internal node table.
uncompressed_size is reset to 0 (line 175).  Result: the descriptor, the
rest of the stream, and the diagnostics in order. -/
def parse_body (h : Nat) (t : List Nat) :
    UnpackDescriptor × List Nat × List Msg :=
  let msgs1 : List Msg := if 24 < h ∨ h < 1 then [.insaneLevels] else []
  let T := h - 1
  let rc := read_bytes .fileTruncated (T + 1) t
  let counts := rc.1
  let symbol_size := 1 + counts.sum
  let msgs3 : List Msg := if 256 < symbol_size then [.badSymbolTable] else []
  let sy1 := bump_last counts
  let rs := read_bytes .symbolTableTruncated sy1.sum rc.2.1
  let sy2 := bump_last sy1
  ⟨{ symbol_size := symbol_size
     treelevels := T
     symbolsin := sy2
     inodesin := (List.range (T + 1)).map (fill_inodesin sy2 T)
     symbol := rs.1
     tree := tree_offsets sy1 0
     uncompressed_size := 0 },
   rs.2.1, msgs1 ++ rc.2.2 ++ msgs3 ++ rs.2.2⟩

/-- unpack_parse_header (lines 155-247).  On an empty input the single
header byte is indeterminate (read fills nothing into hdr, line 168), and
with header byte 0 the decremented treelevels is -1 and line 228 writes to
symbolsin[-1]; both are undefined, hence none. -/
def unpack_parse_header (input : List Nat) :
    Option (UnpackDescriptor × List Nat × List Msg) :=
  match input with
  | [] => none
  | h :: t => if h = 0 then none else some (parse_body h t)

/-- Result of feeding one bit to the decoder: continue with a new level
and code (and possibly one emitted byte), stop at the EOB leaf, or reach
undefined behaviour. -/
inductive BitKind where
  | cont (level code : Nat) (emitted : Option Nat)
  | finished
  | ub
  deriving DecidableEq, Repr

/-- One bit step together with the diagnostics it reported. -/
structure BitStep where
  kind : BitKind
  msgs : List Msg
  deriving DecidableEq, Repr

/-- One bit of the decode loop body (lines 279-303): shift the bit into the
code; if the code reaches the internal node count of the current level the
code denotes a leaf: compute the in-level index, report File corrupt (a
no-op) when it exceeds the level's symbol count, resolve the symbol
address as the level offset plus the index, stop if it equals the EOB
offset, otherwise emit the byte found there and reset level and code;
if the code is below the internal node count, descend one level and report
File corrupt (a no-op) when the new level exceeds treelevels.  Reading a
table at an out-of-range level, or resolving a symbol address beyond
one-past-the-end of the symbol table, is undefined in the C. -/
def decode_bit (d : UnpackDescriptor) (level code bit : Nat) : BitStep :=
  let code := 2 * code + bit
  match d.inodesin.get? level with
  | none => ⟨.ub, []⟩
  | some ino =>
    if ino ≤ code then
      let index := code - ino
      match d.symbolsin.get? level with
      | none => ⟨.ub, []⟩
      | some sy =>
        let msgs : List Msg := if sy < index then [.fileCorrupt] else []
        match d.tree.get? level with
        | none => ⟨.ub, msgs⟩
        | some off =>
          if off + index = d.symbol.length then ⟨.finished, msgs⟩
          else
            match d.symbol.get? (off + index) with
            | some s => ⟨.cont 0 0 (some s), msgs⟩
            | none => ⟨.ub, msgs⟩
    else
      ⟨.cont (level + 1) code none,
       if d.treelevels < level + 1 then [.fileCorrupt] else []⟩

/-- The eight bits of one input byte, most significant first (inner for
loop, line 279). -/
def byteBits (b : Nat) : List Nat :=
  [b / 128 % 2, b / 64 % 2, b / 32 % 2, b / 16 % 2,
   b / 8 % 2, b / 4 % 2, b / 2 % 2, b % 2]

/-- Outcome of running the decoder over a list of bits within one byte. -/
inductive InnerOutcome where
  | cont (level code : Nat) (out : List Nat) (msgs : List Msg)
  | finished (out : List Nat) (msgs : List Msg)
  | ub
  deriving DecidableEq, Repr

/-- Decoder run over the bits of one byte (inner loop, lines 279-304). -/
def decode_bits (d : UnpackDescriptor) :
    List Nat → Nat → Nat → List Nat → List Msg → InnerOutcome
  | [], level, code, out, msgs => .cont level code out msgs
  | b :: bs, level, code, out, msgs =>
    match decode_bit d level code b with
    | ⟨.cont l c e, m⟩ => decode_bits d bs l c (out ++ e.toList) (msgs ++ m)
    | ⟨.finished, m⟩ => .finished out (msgs ++ m)
    | ⟨.ub, _⟩ => .ub

/-- Outcome of the whole decode loop: the input ran out at a byte
boundary, the EOB leaf was found, or undefined behaviour was reached. -/
inductive LoopOutcome where
  | eofReached (out : List Nat) (msgs : List Msg)
  | finished (out : List Nat) (msgs : List Msg)
  | ub
  deriving DecidableEq, Repr

/-- Decode loop over whole input bytes (outer loop, lines 271-305). -/
def decode_loop (d : UnpackDescriptor) :
    List Nat → Nat → Nat → List Nat → List Msg → LoopOutcome
  | [], _, _, out, msgs => .eofReached out msgs
  | b :: rest, level, code, out, msgs =>
    match decode_bits d (byteBits b) level code out msgs with
    | .cont l c out2 msgs2 => decode_loop d rest l c out2 msgs2
    | .finished out2 msgs2 => .finished out2 msgs2
    | .ub => .ub

/-- unpack_decode (lines 252-311): run the loop from level 0 and code 0,
then the code at the finished label (lines 307-310): compare the emitted
byte count with uncompressed_size, report Premature EOF (a no-op) on
mismatch, and overwrite uncompressed_size with the emitted count.  Result:
the output bytes, the diagnostics, and the overwritten uncompressed_size. -/
def unpack_decode (d : UnpackDescriptor) (input : List Nat) :
    Option (List Nat × List Msg × Nat) :=
  match decode_loop d input 0 0 [] [] with
  | .ub => none
  | .eofReached out msgs =>
    some (out,
      if (out.length : Int) ≠ d.uncompressed_size
        then msgs ++ [.prematureEOF] else msgs,
      out.length)
  | .finished out msgs =>
    some (out,
      if (out.length : Int) ≠ d.uncompressed_size
        then msgs ++ [.prematureEOF] else msgs,
      out.length)

/-- unpack (lines 314-325): parse the header, decode, and return the
descriptor field uncompressed_size, which unpack_decode overwrote with the
emitted byte count.  Result: the returned size, the output bytes, and the
diagnostics in order. -/
def unpack (input : List Nat) : Option (Nat × List Nat × List Msg) :=
  match unpack_parse_header input with
  | none => none
  | some (d, rest, pmsgs) =>
    match unpack_decode d rest with
    | none => none
    | some (out, dmsgs, size) => some (size, out, pmsgs ++ dmsgs)

/-- Concrete descriptor produced by parsing the container header 0x02,
counts 0x01 0x00, symbols 0x41 0x42; used to instantiate theorems. -/
def exampleDescriptor : UnpackDescriptor :=
  { symbol_size := 2, treelevels := 1, symbolsin := [1, 2],
    inodesin := [1, 0], symbol := [65, 66], tree := [0, 1],
    uncompressed_size := 0 }

lemma read_bytes_exact (m : Msg) (xs s : List Nat) :
    read_bytes m xs.length (xs ++ s) = (xs, s, []) := by
  induction xs with
  | nil => rfl
  | cons b bs ih => simp [read_bytes, ih]

lemma bump_last_length (l : List Nat) : (bump_last l).length = l.length := by
  induction l with
  | nil => rfl
  | cons c cs ih =>
    cases cs with
    | nil => rfl
    | cons c2 cs2 => simpa [bump_last] using ih

lemma bump_last_sum (l : List Nat) (hl : l ≠ []) :
    (bump_last l).sum = l.sum + 1 := by
  induction l with
  | nil => exact absurd rfl hl
  | cons c cs ih =>
    cases cs with
    | nil => simp [bump_last]
    | cons c2 cs2 =>
      have := ih (by simp)
      simp [bump_last, this]
      omega

lemma bump_last_getD_last (l : List Nat) (hl : l ≠ []) :
    (bump_last l).getD (l.length - 1) 0 = l.getD (l.length - 1) 0 + 1 := by
  induction l with
  | nil => exact absurd rfl hl
  | cons c cs ih =>
    cases cs with
    | nil => simp [bump_last]
    | cons c2 cs2 =>
      have := ih (by simp)
      simpa [bump_last] using this

lemma bump_last_getD_lt (l : List Nat) (i : Nat) (hi : i + 1 < l.length) :
    (bump_last l).getD i 0 = l.getD i 0 := by
  induction l generalizing i with
  | nil => simp at hi
  | cons c cs ih =>
    cases cs with
    | nil => simp at hi
    | cons c2 cs2 =>
      cases i with
      | zero => simp [bump_last]
      | succ j =>
        have := ih j (by simpa using hi)
        simpa [bump_last] using this

lemma fill_inodesin_self (sy : List Nat) (T : Nat) :
    fill_inodesin sy T T = 0 := by
  simp [fill_inodesin, Nat.sub_self, fill_inodesin_go]

lemma fill_inodesin_lt (sy : List Nat) (T L : Nat) (hL : L < T) :
    fill_inodesin sy T L =
      (fill_inodesin sy T (L + 1) + sy.getD (L + 1) 0) / 2 := by
  have h2 : T - L = (T - (L + 1)) + 1 := by omega
  simp [fill_inodesin, h2, fill_inodesin_go]

lemma inodes_getD (sy : List Nat) (T L : Nat) (hL : L ≤ T) :
    ((List.range (T + 1)).map (fill_inodesin sy T)).getD L 0 =
      fill_inodesin sy T L := by
  have h1 : L < T + 1 := by omega
  simp [List.getD, List.getElem?_map, List.getElem?_range h1]

lemma unpack_parse_header_inv {input : List Nat} {d : UnpackDescriptor}
    {rest : List Nat} {msgs : List Msg}
    (hp : unpack_parse_header input = some (d, rest, msgs)) :
    ∃ h t, input = h :: t ∧ h ≠ 0 ∧ parse_body h t = (d, rest, msgs) := by
  cases input with
  | nil => simp [unpack_parse_header] at hp
  | cons h t =>
    by_cases h0 : h = 0
    · simp [unpack_parse_header, h0] at hp
    · exact ⟨h, t, rfl, h0, by simpa [unpack_parse_header, h0] using hp⟩

lemma parse_body_fields (h : Nat) (t : List Nat) :
    (parse_body h t).1.treelevels = h - 1 ∧
    (parse_body h t).1.inodesin =
      (List.range ((h - 1) + 1)).map
        (fill_inodesin (parse_body h t).1.symbolsin (h - 1)) ∧
    (parse_body h t).1.uncompressed_size = 0 :=
  ⟨rfl, rfl, rfl⟩

lemma parse_body_symbolsin (h : Nat) (t : List Nat) :
    (parse_body h t).1.symbolsin =
      bump_last (bump_last (read_bytes .fileTruncated ((h - 1) + 1) t).1) :=
  rfl

lemma parse_body_symbol_rest (h : Nat) (t : List Nat) :
    (parse_body h t).1.symbol =
      (read_bytes .symbolTableTruncated
        (bump_last (read_bytes .fileTruncated ((h - 1) + 1) t).1).sum
        (read_bytes .fileTruncated ((h - 1) + 1) t).2.1).1 ∧
    (parse_body h t).2.1 =
      (read_bytes .symbolTableTruncated
        (bump_last (read_bytes .fileTruncated ((h - 1) + 1) t).1).sum
        (read_bytes .fileTruncated ((h - 1) + 1) t).2.1).2.1 :=
  ⟨rfl, rfl⟩

lemma unpack_decode_size (d : UnpackDescriptor) (input out : List Nat)
    (msgs : List Msg) (size : Nat)
    (hd : unpack_decode d input = some (out, msgs, size)) : size = out.length := by
  unfold unpack_decode at hd
  cases hl : decode_loop d input 0 0 [] [] <;> rw [hl] at hd
  · simp only [Option.some.injEq, Prod.mk.injEq] at hd
    obtain ⟨h1, -, h3⟩ := hd
    rw [← h1, ← h3]
  · simp only [Option.some.injEq, Prod.mk.injEq] at hd
    obtain ⟨h1, -, h3⟩ := hd
    rw [← h1, ← h3]
  · simp at hd

/-- C2: in every descriptor produced by header parsing, the deepest level
has internal node count 0, and each shallower level L holds half the sum
of the internal node count and leaf count of level L + 1, with truncating
integer division. -/
theorem inodesin_recurrence (input : List Nat) (d : UnpackDescriptor)
    (rest : List Nat) (msgs : List Msg)
    (hp : unpack_parse_header input = some (d, rest, msgs)) :
    d.inodesin.getD d.treelevels 0 = 0 ∧
    ∀ L, L < d.treelevels →
      d.inodesin.getD L 0 =
        (d.inodesin.getD (L + 1) 0 + d.symbolsin.getD (L + 1) 0) / 2 := by
  obtain ⟨h, t, rfl, h0, hpb⟩ := unpack_parse_header_inv hp
  have hd : d = (parse_body h t).1 := by rw [hpb]
  subst hd
  obtain ⟨hT, hI, _⟩ := parse_body_fields h t
  rw [hI, hT]
  constructor
  · rw [inodes_getD _ _ _ le_rfl, fill_inodesin_self]
  · intro L hL
    rw [inodes_getD _ _ _ (by omega), inodes_getD _ _ _ (by omega),
        fill_inodesin_lt _ _ _ hL]

/-- C10: header parsing resets uncompressed_size to 0, and whenever unpack
returns a result, the returned size equals the number of emitted bytes
(the field is overwritten with the emitted count after the premature EOF
comparison), so that comparison can never change the returned result. -/
theorem uncompressed_size_overwrite (input : List Nat) :
    (∀ d rest msgs, unpack_parse_header input = some (d, rest, msgs) →
      d.uncompressed_size = 0) ∧
    (∀ n out msgs, unpack input = some (n, out, msgs) → n = out.length) := by
  constructor
  · intro d rest msgs hp
    obtain ⟨h, t, _, h0, hpb⟩ := unpack_parse_header_inv hp
    have hd : d = (parse_body h t).1 := by rw [hpb]
    rw [hd]
    exact (parse_body_fields h t).2.2
  · intro n out msgs hu
    unfold unpack at hu
    cases hph : unpack_parse_header input with
    | none => rw [hph] at hu; simp at hu
    | some r =>
      obtain ⟨d, rest, pm⟩ := r
      rw [hph] at hu
      dsimp only at hu
      cases hdd : unpack_decode d rest with
      | none => rw [hdd] at hu; simp at hu
      | some r2 =>
        obtain ⟨o, dm, sz⟩ := r2
        rw [hdd] at hu
        simp only [Option.some.injEq, Prod.mk.injEq] at hu
        obtain ⟨h1, h2, -⟩ := hu
        rw [← h1, ← h2]
        exact unpack_decode_size d rest o dm sz hdd

/-- C3: when the header byte h and the h transmitted count bytes are
present, parsing succeeds and the symbolsin table used by the decoder is
the transmitted counts with the last entry incremented twice (once before
the symbol read loop, once after), so the last level's count is the
transmitted byte plus 2 and every other level's count is its transmitted
byte. -/
theorem symbolsin_after_parse (h : Nat) (counts more : List Nat)
    (h1 : 1 ≤ h) (hlen : counts.length = h) :
    (unpack_parse_header (h :: (counts ++ more))).map
      (fun r => r.1.symbolsin) = some (bump_last (bump_last counts)) ∧
    (bump_last (bump_last counts)).getD (h - 1) 0 =
      counts.getD (h - 1) 0 + 2 ∧
    ∀ i, i + 1 < h →
      (bump_last (bump_last counts)).getD i 0 = counts.getD i 0 := by
  have h0 : ¬ h = 0 := by omega
  have hcc : (h - 1) + 1 = counts.length := by omega
  have hne : counts ≠ [] := by
    intro e
    rw [e] at hlen
    simp at hlen
    omega
  have hbne : bump_last counts ≠ [] := by
    have hp : 0 < (bump_last counts).length := by
      rw [bump_last_length, hlen]; omega
    exact List.length_pos.mp hp
  refine ⟨?_, ?_, ?_⟩
  · rw [show unpack_parse_header (h :: (counts ++ more)) =
        some (parse_body h (counts ++ more)) from by
      simp [unpack_parse_header, h0]]
    dsimp only [Option.map]
    rw [parse_body_symbolsin, hcc, read_bytes_exact]
  · have e1 := bump_last_getD_last (bump_last counts) hbne
    rw [bump_last_length, hlen] at e1
    have e2 := bump_last_getD_last counts hne
    rw [hlen] at e2
    rw [e1, e2]
  · intro i hi
    have l1 : i + 1 < (bump_last counts).length := by
      rw [bump_last_length, hlen]; omega
    rw [bump_last_getD_lt _ _ l1, bump_last_getD_lt _ _ (by omega : i + 1 < counts.length)]

/-- C8 amended: the number of symbol table bytes consumed from the stream
is the sum of the transmitted per-level counts plus one, because the last
level's count is incremented before the read loop; with exactly that many
symbol bytes present, parsing stores them as the symbol table and leaves
the remainder of the stream untouched. -/
theorem symbol_bytes_consumed (h : Nat) (counts syms rest : List Nat)
    (h1 : 1 ≤ h) (hc : counts.length = h) (hs : syms.length = counts.sum + 1) :
    (unpack_parse_header (h :: (counts ++ (syms ++ rest)))).map
      (fun r => (r.1.symbol, r.2.1)) = some (syms, rest) := by
  have h0 : ¬ h = 0 := by omega
  have hcc : (h - 1) + 1 = counts.length := by omega
  have hne : counts ≠ [] := by
    intro e
    rw [e] at hc
    simp at hc
    omega
  have hr1 : read_bytes .fileTruncated ((h - 1) + 1) (counts ++ (syms ++ rest)) =
      (counts, syms ++ rest, []) := by
    rw [hcc]; exact read_bytes_exact _ _ _
  have hsum : (bump_last counts).sum = syms.length := by
    rw [bump_last_sum counts hne, hs]
  have hr2 : read_bytes .symbolTableTruncated (bump_last counts).sum
      (syms ++ rest) = (syms, rest, []) := by
    rw [hsum]; exact read_bytes_exact _ _ _
  rw [show unpack_parse_header (h :: (counts ++ (syms ++ rest))) =
      some (parse_body h (counts ++ (syms ++ rest))) from by
    simp [unpack_parse_header, h0]]
  dsimp only [Option.map]
  obtain ⟨e1, e2⟩ := parse_body_symbol_rest h (counts ++ (syms ++ rest))
  rw [e1, e2, hr1]
  dsimp only
  rw [hr2]

/-- C8 counterexample: for the container with header byte 1 and a single
transmitted count byte 0, the claimed consumption (sum of transmitted
counts, here 0 bytes) is wrong: one byte, 0x99, is consumed into the
symbol table and only 0x77 is left for the bitstream. -/
theorem symbol_bytes_consumed_counterexample :
    (unpack_parse_header [1, 0, 153, 119]).map
      (fun r => (r.1.symbol, r.2.1)) = some ([153], [119]) ∧
    (unpack_parse_header [1, 0, 153, 119]).map
      (fun r => (r.1.symbol, r.2.1)) ≠ some ([], [153, 119]) := by
  constructor <;> decide

/-- C5 counterexample: on the container of the claimed scenario (header
0x01, count 0x02, symbols 0x41 0x42) with a trailing bitstream byte, the
symbol read loop consumes three bytes (the count was pre-incremented), so
the bitstream byte 0x88 becomes the third symbol, the input is exhausted,
and the decoder reports 0 bytes of output instead of writing 0x41 0x42 and
reporting 2. -/
theorem one_level_scenario_output :
    (unpack [1, 2, 65, 66, 136]).map (fun r => (r.1, r.2.1)) = some (0, []) ∧
    (unpack [1, 2, 65, 66, 136]).map (fun r => (r.1, r.2.1)) ≠
      some (2, [65, 66]) := by
  constructor <;> decide

/-- C5 amended: encoding A, B, then EOB needs two tree levels in this
format (A at depth 1; B and EOB at depth 2, which transmits as last-level
count 0): on header 0x02, counts 0x01 0x00, symbols 0x41 0x42 and
bitstream byte 0x88 (bits 1 00 01, the codes of A, B, EOB), the decoder
writes exactly 0x41 0x42 and reports 2 output bytes (the Premature EOF
diagnostic is reported to a no-op hook even on this success path because
the expected size field still holds 0 at the comparison). -/
theorem two_level_scenario_output :
    unpack [2, 1, 0, 65, 66, 136] =
      some (2, [65, 66], [Msg.prematureEOF]) := by
  decide

/-- C6 evaluation at the failing input: a header byte of 25 is reported to
the no-op reporter as insane, but parsing is not aborted: the container is
parsed and decoded to completion and unpack returns success with 8 output
bytes. -/
theorem unpack_depth25_completes :
    unpack (25 :: (List.replicate 25 0 ++ [65, 0])) =
      some (8, List.replicate 8 65, [Msg.insaneLevels, Msg.prematureEOF]) := by
  decide

/-- C7 evaluation at the failing input: the bitstream byte 0x00 decodes to
eight copies of the only symbol and the input is then exhausted with no
EOB resolved; the Premature EOF condition is detected and reported to the
no-op reporter, after which unpack still returns success with count 8. -/
theorem unpack_premature_eof_returns_success :
    unpack [1, 0, 65, 0] =
      some (8, List.replicate 8 65, [Msg.prematureEOF]) := by
  decide

/-- C1: characterization of one bit step of the decoder.  With the tables
defined at the current level: the code becomes 2 * code + bit; if it is
strictly below the internal node count the decoder descends one level and
reports File corrupt exactly when the new level exceeds treelevels (the
number of levels minus one); otherwise it resolves a leaf at
index = code - inodesin[level], reports File corrupt exactly when the
index strictly exceeds symbolsin[level], and resolves the symbol at
offset tree[level] + index of the symbol table (stopping at the EOB
offset, emitting the byte found below it, undefined beyond it). -/
theorem decode_bit_spec (d : UnpackDescriptor) (level code bit ino sy off : Nat)
    (hino : d.inodesin.get? level = some ino)
    (hsy : d.symbolsin.get? level = some sy)
    (hoff : d.tree.get? level = some off) :
    (2 * code + bit < ino →
      decode_bit d level code bit =
        ⟨BitKind.cont (level + 1) (2 * code + bit) none,
         if d.treelevels < level + 1 then [Msg.fileCorrupt] else []⟩) ∧
    (ino ≤ 2 * code + bit →
      (decode_bit d level code bit).msgs =
        (if sy < 2 * code + bit - ino then [Msg.fileCorrupt] else []) ∧
      (decode_bit d level code bit).kind =
        (if off + (2 * code + bit - ino) = d.symbol.length then
          BitKind.finished
         else
           match d.symbol.get? (off + (2 * code + bit - ino)) with
           | some s => BitKind.cont 0 0 (some s)
           | none => BitKind.ub)) := by
  constructor
  · intro hlt
    simp only [decode_bit, hino]
    rw [if_neg (by omega)]
  · intro hge
    by_cases heq : off + (2 * code + bit - ino) = d.symbol.length
    · simp only [decode_bit, hino, hsy, hoff, if_pos hge, if_pos heq]
      exact ⟨by trivial, by trivial⟩
    · simp only [decode_bit, hino, hsy, hoff, if_pos hge, if_neg heq]
      cases hsym : d.symbol.get? (off + (2 * code + bit - ino)) with
      | none => simp only [hsym]; exact ⟨by trivial, by trivial⟩
      | some s => simp only [hsym]; exact ⟨by trivial, by trivial⟩

/-- C1 witness: on the two-level example descriptor, from the root with
bit 0 the code 0 is below the internal node count 1, so the decoder
descends to level 1 without any report. -/
theorem decode_bit_spec_witness :
    decode_bit exampleDescriptor 0 0 0 = ⟨BitKind.cont 1 0 none, []⟩ := by
  have h := (decode_bit_spec exampleDescriptor 0 0 0 1 1 0 rfl rfl rfl).1
    (by decide)
  simpa using h

/-- C9: in the leaf branch, an in-level index exactly equal to the level's
symbol count passes the bounds check (only a strictly greater index is
reported as File corrupt), and there is a concrete container on which the
decoder therefore resolves and emits the symbol stored at
tree[level] + symbolsin[level], one slot past the last leaf belonging to
that level: parsing 0x03 0x00 0x00 0x00 0x5A gives level 0 an offset of 0
and a symbol count of 0, and every 0 bit emits the byte 0x5A found at
offset 0, which belongs to the deepest level. -/
theorem index_boundary_spec :
    (∀ (d : UnpackDescriptor) (level code bit ino sy : Nat),
      d.inodesin.get? level = some ino →
      d.symbolsin.get? level = some sy →
      2 * code + bit = ino + sy →
      (decode_bit d level code bit).msgs = []) ∧
    (∀ (d : UnpackDescriptor) (level code bit ino sy : Nat),
      d.inodesin.get? level = some ino →
      d.symbolsin.get? level = some sy →
      2 * code + bit = ino + sy + 1 →
      (decode_bit d level code bit).msgs = [Msg.fileCorrupt]) ∧
    (unpack [3, 0, 0, 0, 90, 0] =
        some (8, List.replicate 8 90, [Msg.prematureEOF]) ∧
      (unpack_parse_header [3, 0, 0, 0, 90, 0]).map
        (fun r => (r.1.tree.getD 0 0 + r.1.symbolsin.getD 0 0,
                   r.1.symbol.get? 0)) = some (0, some 90)) := by
  refine ⟨?_, ?_, by decide, by decide⟩
  · intro d level code bit ino sy hino hsy hcb
    have hge : ino ≤ 2 * code + bit := by omega
    have hidx : 2 * code + bit - ino = sy := by omega
    simp only [decode_bit, hino, hsy, if_pos hge, hidx, lt_irrefl, if_false]
    cases htr : d.tree.get? level with
    | none => simp
    | some off =>
      by_cases heq : off + sy = d.symbol.length
      · simp [heq]
      · simp only [if_neg heq]
        cases hs2 : d.symbol.get? (off + sy) <;> simp
  · intro d level code bit ino sy hino hsy hcb
    have hge : ino ≤ 2 * code + bit := by omega
    have hidx : 2 * code + bit - ino = sy + 1 := by omega
    have hlt : sy < sy + 1 := Nat.lt_succ_self sy
    simp only [decode_bit, hino, hsy, if_pos hge, hidx, if_pos hlt]
    cases htr : d.tree.get? level with
    | none => simp
    | some off =>
      by_cases heq : off + (sy + 1) = d.symbol.length
      · simp [heq]
      · simp only [if_neg heq]
        cases hs2 : d.symbol.get? (off + (sy + 1)) <;> simp

/-- C9 witness: on the two-level example descriptor at the root with code
1 and bit 0, the shifted code is 2, the in-level index 2 - 1 = 1 equals
the level's symbol count 1, and no File corrupt is reported. -/
theorem index_boundary_spec_witness :
    (decode_bit exampleDescriptor 0 1 0).msgs = [] :=
  index_boundary_spec.1 exampleDescriptor 0 1 0 1 1 rfl rfl (by decide)

lemma decode_bit_kind_finished (d : UnpackDescriptor) (level code bit : Nat) :
    (decode_bit d level code bit).kind = BitKind.finished ↔
      ∃ ino sy off, d.inodesin.get? level = some ino ∧
        d.symbolsin.get? level = some sy ∧
        d.tree.get? level = some off ∧
        ino ≤ 2 * code + bit ∧
        off + (2 * code + bit - ino) = d.symbol.length := by
  unfold decode_bit
  cases hino : d.inodesin.get? level with
  | none => simp [hino]
  | some ino =>
    simp only [hino]
    by_cases hge : ino ≤ 2 * code + bit
    · rw [if_pos hge]
      cases hsy : d.symbolsin.get? level with
      | none => simp [hsy]
      | some sy =>
        simp only [hsy]
        cases htr : d.tree.get? level with
        | none => simp [htr]
        | some off =>
          simp only [htr]
          by_cases heq : off + (2 * code + bit - ino) = d.symbol.length
          · simp [heq, hge]
          · rw [if_neg heq]
            cases hs2 : d.symbol.get? (off + (2 * code + bit - ino)) with
            | none => simp [hs2, heq]
            | some s => simp [hs2, heq]
    · rw [if_neg hge]
      simp [hge]

lemma decode_bit_kind_emit (d : UnpackDescriptor) (level code bit l c s : Nat)
    (he : (decode_bit d level code bit).kind = BitKind.cont l c (some s)) :
    ∃ ino sy off, d.inodesin.get? level = some ino ∧
      d.symbolsin.get? level = some sy ∧
      d.tree.get? level = some off ∧
      ino ≤ 2 * code + bit ∧
      off + (2 * code + bit - ino) ≠ d.symbol.length ∧
      d.symbol.get? (off + (2 * code + bit - ino)) = some s := by
  unfold decode_bit at he
  cases hino : d.inodesin.get? level with
  | none => simp only [hino] at he; simp at he
  | some ino =>
    simp only [hino] at he
    by_cases hge : ino ≤ 2 * code + bit
    · rw [if_pos hge] at he
      cases hsy : d.symbolsin.get? level with
      | none => simp only [hsy] at he; simp at he
      | some sy =>
        simp only [hsy] at he
        cases htr : d.tree.get? level with
        | none => simp only [htr] at he; simp at he
        | some off =>
          simp only [htr] at he
          by_cases heq : off + (2 * code + bit - ino) = d.symbol.length
          · rw [if_pos heq] at he; simp at he
          · rw [if_neg heq] at he
            cases hs2 : d.symbol.get? (off + (2 * code + bit - ino)) with
            | none => simp only [hs2] at he; simp at he
            | some s2 =>
              simp only [hs2] at he
              simp only [BitKind.cont.injEq, Option.some.injEq] at he
              exact ⟨ino, sy, off, rfl, rfl, rfl, hge, heq, by rw [hs2, he.2.2]⟩
    · rw [if_neg hge] at he
      simp at he

lemma decode_bits_finished_exists (d : UnpackDescriptor) (bs : List Nat) :
    ∀ (level code : Nat) (out : List Nat) (msgs : List Msg)
      (out2 : List Nat) (msgs2 : List Msg),
      decode_bits d bs level code out msgs = InnerOutcome.finished out2 msgs2 →
      ∃ l c b, (decode_bit d l c b).kind = BitKind.finished := by
  induction bs with
  | nil =>
    intro level code out msgs out2 msgs2 h
    simp [decode_bits] at h
  | cons b bs ih =>
    intro level code out msgs out2 msgs2 h
    unfold decode_bits at h
    cases hb : decode_bit d level code b with
    | mk k m =>
      rw [hb] at h
      cases k with
      | cont l c e => exact ih l c _ _ _ _ h
      | finished => exact ⟨level, code, b, by rw [hb]⟩
      | ub => simp at h

lemma decode_loop_finished_exists (d : UnpackDescriptor) (bytes : List Nat) :
    ∀ (level code : Nat) (out : List Nat) (msgs : List Msg)
      (out2 : List Nat) (msgs2 : List Msg),
      decode_loop d bytes level code out msgs = LoopOutcome.finished out2 msgs2 →
      ∃ l c b, (decode_bit d l c b).kind = BitKind.finished := by
  induction bytes with
  | nil =>
    intro level code out msgs out2 msgs2 h
    simp [decode_loop] at h
  | cons b rest ih =>
    intro level code out msgs out2 msgs2 h
    unfold decode_loop at h
    cases hi : decode_bits d (byteBits b) level code out msgs with
    | cont l c o m =>
      rw [hi] at h
      exact ih l c _ _ _ _ h
    | finished o m =>
      exact decode_bits_finished_exists d _ _ _ _ _ _ _ hi
    | ub => rw [hi] at h; simp at h

/-- C4: the decoder stops exactly at the EOB slot and never emits a byte
for it.  A bit step ends the decode precisely when a leaf is resolved at
the one-past-the-end EOB offset of the symbol table; every step that
emits a byte resolved a leaf at an offset other than the EOB offset (the
emitted byte is read from the symbol table there); and whenever the whole
decode loop ends in the finished outcome, some bit step resolved the EOB
slot (input exhaustion yields the distinct eofReached outcome, so EOB is
the only success terminal of the loop). -/
theorem eob_terminal_spec :
    (∀ (d : UnpackDescriptor) (level code bit : Nat),
      ((decode_bit d level code bit).kind = BitKind.finished ↔
        ∃ ino sy off, d.inodesin.get? level = some ino ∧
          d.symbolsin.get? level = some sy ∧
          d.tree.get? level = some off ∧
          ino ≤ 2 * code + bit ∧
          off + (2 * code + bit - ino) = d.symbol.length)) ∧
    (∀ (d : UnpackDescriptor) (level code bit l c s : Nat),
      (decode_bit d level code bit).kind = BitKind.cont l c (some s) →
      ∃ ino sy off, d.inodesin.get? level = some ino ∧
        d.symbolsin.get? level = some sy ∧
        d.tree.get? level = some off ∧
        ino ≤ 2 * code + bit ∧
        off + (2 * code + bit - ino) ≠ d.symbol.length ∧
        d.symbol.get? (off + (2 * code + bit - ino)) = some s) ∧
    (∀ (d : UnpackDescriptor) (bytes : List Nat) (out2 : List Nat)
      (msgs2 : List Msg),
      decode_loop d bytes 0 0 [] [] = LoopOutcome.finished out2 msgs2 →
      ∃ l c b ino sy off, d.inodesin.get? l = some ino ∧
        d.symbolsin.get? l = some sy ∧
        d.tree.get? l = some off ∧
        ino ≤ 2 * c + b ∧
        off + (2 * c + b - ino) = d.symbol.length) := by
  refine ⟨decode_bit_kind_finished, decode_bit_kind_emit, ?_⟩
  intro d bytes out2 msgs2 h
  obtain ⟨l, c, b, hf⟩ := decode_loop_finished_exists d bytes 0 0 [] [] out2 msgs2 h
  obtain ⟨ino, sy, off, h1, h2, h3, h4, h5⟩ :=
    (decode_bit_kind_finished d l c b).mp hf
  exact ⟨l, c, b, ino, sy, off, h1, h2, h3, h4, h5⟩

/-- C4 witness: on the two-level example descriptor at level 1 with code 0
and bit 1, the leaf offset 1 + (1 - 0) equals the symbol table length 2,
so the step is the finishing EOB step. -/
theorem eob_terminal_spec_witness :
    (decode_bit exampleDescriptor 1 0 1).kind = BitKind.finished :=
  (eob_terminal_spec.1 exampleDescriptor 1 0 1).mpr
    ⟨0, 2, 1, rfl, rfl, rfl, by decide, by decide⟩

/-- C2 witness: the concrete container 0x02 0x01 0x00 0x41 0x42 parses to
the example descriptor, whose internal node table is [1, 0]: the deepest
level holds 0 and level 0 holds (0 + 2) / 2 = 1. -/
theorem inodesin_recurrence_witness :
    exampleDescriptor.inodesin.getD exampleDescriptor.treelevels 0 = 0 ∧
    exampleDescriptor.inodesin.getD 0 0 =
      (exampleDescriptor.inodesin.getD 1 0 +
        exampleDescriptor.symbolsin.getD 1 0) / 2 := by
  have h := inodesin_recurrence [2, 1, 0, 65, 66] exampleDescriptor [] []
    (by decide)
  exact ⟨h.1, h.2 0 (by decide)⟩

/-- C3 witness: for header 2 and transmitted counts [1, 0], the parsed
symbolsin table is [1, 2]: the last level is 0 + 2 and level 0 keeps its
transmitted byte 1. -/
theorem symbolsin_after_parse_witness :
    (unpack_parse_header (2 :: ([1, 0] ++ [65, 66]))).map
      (fun r => r.1.symbolsin) = some (bump_last (bump_last [1, 0])) ∧
    (bump_last (bump_last [1, 0])).getD (2 - 1) 0 = [1, 0].getD (2 - 1) 0 + 2 ∧
    (bump_last (bump_last [1, 0])).getD 0 0 = [1, 0].getD 0 0 := by
  have h := symbolsin_after_parse 2 [1, 0] [65, 66] (by decide) (by decide)
  exact ⟨h.1, h.2.1, h.2.2 0 (by decide)⟩

/-- C8 witness: for header 1 and transmitted count [0], the sum plus one
is 1 symbol byte, so parsing consumes 0x41 into the symbol table and
leaves the byte 7 as the bitstream. -/
theorem symbol_bytes_consumed_witness :
    (unpack_parse_header (1 :: ([0] ++ ([65] ++ [7])))).map
      (fun r => (r.1.symbol, r.2.1)) = some ([65], [7]) :=
  symbol_bytes_consumed 1 [0] [65] [7] (by decide) (by decide) (by decide)

/-- C10 witness: parsing the container 0x01 0x00 0x41 leaves the expected
size field at 0, and unpack on that container returns exactly the length
of the (empty) output. -/
theorem uncompressed_size_overwrite_witness :
    UnpackDescriptor.uncompressed_size
      { symbol_size := 1, treelevels := 0, symbolsin := [2],
        inodesin := [0], symbol := [65], tree := [0],
        uncompressed_size := 0 } = 0 ∧
    (0 : Nat) = ([] : List Nat).length := by
  have h := uncompressed_size_overwrite [1, 0, 65]
  exact ⟨h.1 _ [] [] (by decide), h.2 0 [] [] (by decide)⟩
